import Mathlib

/-!
Shallow embedding of the `rustyxargs` core (src/parser.rs, src/children.rs,
src/main.rs) together with theorems checking the design document's claims
about it.

Bytes are modelled as `Nat`, an `OsString` as a `List Nat` of its bytes.
The Rust `Parser` struct carries a closure `action : FnMut(&[OsString]) ->
anyhow::Result<()>`; here the closure is passed to each operation as an
explicit function `List (List Byte) → σ → σ × Except ε Unit`, where `σ` is
the closure's captured environment and the returned `Except` is the Rust
`Result` (`anyhow::Error` carries no information we need, so the error type
is an arbitrary `ε`).  A Rust method `fn f(&mut self) -> Result<()>` becomes
a Lean function returning `Parser × σ × Except ε Unit`: the state comes back
even on the error path, exactly as `self` survives an early `?` return.
-/

namespace RXargs

/-- Bytes read from stdin, as natural numbers. -/
abbrev Byte := Nat

variable {σ ε : Type}

/-- Model of Rust `(ch as char).is_ascii_whitespace()` for a byte: space,
horizontal tab, line feed, form feed, carriage return. -/
def isAsciiWhitespace (ch : Byte) : Bool :=
  ch == 32 || ch == 9 || ch == 10 || ch == 12 || ch == 13

/-- State of `Parser` (src/parser.rs): accumulated arguments `args`, their
accounted byte length `cur_len` (separators included), the configured
maximum `max_len`, and the argument currently being parsed `arg`.  The
`action` closure is not stored; every operation receives it explicitly. -/
structure Parser where
  args : List (List Byte)
  cur_len : Nat
  max_len : Nat
  arg : List Byte
  deriving DecidableEq

/-- Model of `Parser::new`: empty accumulators, given `max_len`. -/
def Parser.new (max_len : Nat) : Parser :=
  { args := [], cur_len := 0, max_len := max_len, arg := [] }

/-- Model of `Parser::is_break_down_needed`. -/
def Parser.is_break_down_needed (s : Parser) : Bool :=
  let separator_len := if !s.args.isEmpty then 1 else 0
  decide (s.cur_len + separator_len + s.arg.length > s.max_len)

/-- Model of `Parser::append_arg`: charge one separator byte when `args` is
already non-empty, move `arg` into `args`, charge its length, clear `arg`. -/
def Parser.append_arg (s : Parser) : Parser :=
  let cur1 := if !s.args.isEmpty then s.cur_len + 1 else s.cur_len
  { s with args := s.args ++ [s.arg], cur_len := cur1 + s.arg.length, arg := [] }

/-- Model of `Parser::handle_space`.  On `is_break_down_needed` the action is
called on `args`; a failure returns early (the `?` operator), leaving `args`
and `cur_len` untouched; on success they are cleared.  Then a non-empty
in-progress `arg` is appended. -/
def Parser.handle_space (action : List (List Byte) → σ → σ × Except ε Unit)
    (s : Parser) (t : σ) : Parser × σ × Except ε Unit :=
  if s.is_break_down_needed then
    match action s.args t with
    | (t1, Except.error e) => (s, t1, Except.error e)
    | (t1, Except.ok _) =>
      let s1 := { s with args := [], cur_len := 0 }
      (if !s1.arg.isEmpty then s1.append_arg else s1, t1, Except.ok ())
  else
    (if !s.arg.isEmpty then s.append_arg else s, t, Except.ok ())

/-- Model of `Parser::handle_byte`: whitespace triggers `handle_space`, any
other byte extends the in-progress argument. -/
def Parser.handle_byte (action : List (List Byte) → σ → σ × Except ε Unit)
    (ch : Byte) (s : Parser) (t : σ) : Parser × σ × Except ε Unit :=
  if isAsciiWhitespace ch then Parser.handle_space action s t
  else ({ s with arg := s.arg ++ [ch] }, t, Except.ok ())

/-- Model of `Parser::handle_eof`: run `handle_space`, then, if `args` is
non-empty, call the action on it once more (without clearing `args`). -/
def Parser.handle_eof (action : List (List Byte) → σ → σ × Except ε Unit)
    (s : Parser) (t : σ) : Parser × σ × Except ε Unit :=
  match Parser.handle_space action s t with
  | (s1, t1, Except.error e) => (s1, t1, Except.error e)
  | (s1, t1, Except.ok _) =>
    if !s1.args.isEmpty then
      match action s1.args t1 with
      | (t2, r) => (s1, t2, r)
    else (s1, t1, Except.ok ())

/-- Recorder environment: the list of batches passed to the action so far. -/
abbrev Batches := List (List (List Byte))

/-- Submission function that always succeeds and records the batch it was
given, mirroring the closure of the `run` helper in the Rust tests. -/
def recordAction (batch : List (List Byte)) (t : Batches) : Batches × Except Unit Unit :=
  (t ++ [batch], Except.ok ())

/-- Submission function that always fails. -/
def failAction (_batch : List (List Byte)) (t : Unit) : Unit × Except Unit Unit :=
  (t, Except.error ())

/-- Feed a list of bytes to the parser one by one, stopping at the first
error, as the driver loop in `main` does with `parser.handle_byte(buf[0])?`. -/
def runBytes (action : List (List Byte) → σ → σ × Except ε Unit) :
    List Byte → Parser → σ → Parser × σ × Except ε Unit
  | [], s, t => (s, t, Except.ok ())
  | b :: rest, s, t =>
    match Parser.handle_byte action b s t with
    | (s1, t1, Except.ok _) => runBytes action rest s1 t1
    | (s1, t1, Except.error e) => (s1, t1, Except.error e)

/-- Whole-stream run with the recording action: all of `input`, then one
`handle_eof`, starting from `Parser.new max_len`, as `main` does. -/
def parseRun (max_len : Nat) (input : List Byte) : Parser × Batches × Except Unit Unit :=
  match runBytes recordAction input (Parser.new max_len) [] with
  | (s, t, Except.ok _) => Parser.handle_eof recordAction s t
  | r => r

/-- Recursive form of `parseRun` generalised over the start state, used for
induction; `parseRun_eq_parseFull` links the two. -/
def parseFull : List Byte → Parser → Batches → Parser × Batches × Except Unit Unit
  | [], s, t => Parser.handle_eof recordAction s t
  | b :: rest, s, t =>
    match Parser.handle_byte recordAction b s t with
    | (s1, t1, Except.ok _) => parseFull rest s1 t1
    | r => r

/-- Reference tokenizer, from the spec's words: split on ASCII whitespace
and drop empty runs.  `cur` is the run of non-whitespace bytes read so far. -/
def splitAux : List Byte → List Byte → List (List Byte)
  | [], cur => if cur.isEmpty then [] else [cur]
  | b :: rest, cur =>
    if isAsciiWhitespace b then
      if cur.isEmpty then splitAux rest [] else cur :: splitAux rest []
    else splitAux rest (cur ++ [b])

/-- Tokens of an input stream: maximal runs of non-whitespace bytes. -/
def splitTokens (input : List Byte) : List (List Byte) :=
  splitAux input []

/-- Accounted size of a batch, from the spec's words: sum of token lengths
plus one separator byte per adjacent pair (`count - 1` in Nat subtraction). -/
def accountedSize (B : List (List Byte)) : Nat :=
  (B.map List.length).sum + (B.length - 1)

/-- A batch the Batcher is allowed to submit: accounted size within
`max_len`, or a single token that alone exceeds `max_len`. -/
def GoodBatch (max_len : Nat) (B : List (List Byte)) : Prop :=
  accountedSize B ≤ max_len ∨ (B.length = 1 ∧ max_len < accountedSize B)

/-- Size bookkeeping invariant of a `Parser` state: `cur_len` is the
accounted size of `args`, and it is within `max_len` except possibly for a
single oversized argument. -/
def SizeInv (s : Parser) : Prop :=
  s.cur_len = accountedSize s.args ∧
    (s.cur_len ≤ s.max_len ∨ (s.args.length = 1 ∧ s.max_len < s.cur_len))

/-!
Embedding of `ChildMinder` (src/children.rs).  A `Child` handle is modelled
as a `Nat` identity.  The outcome of `Child::wait` is supplied by an oracle
`w : Nat → Bool` (`true` = the OS wait call succeeds), and the outcome of
`Command::spawn` by a boolean per call; both model the only aspects of the
OS visible to the claims.  Methods on `&mut self` return
`ChildMinder × ... × Except Unit Unit`, state alongside the `Result`.
-/

/-- State of `ChildMinder` (src/children.rs). -/
structure ChildMinder where
  max_children : Nat
  cmd : List Byte
  initial_args : List (List Byte)
  children : List Nat
  deriving DecidableEq

/-- Model of `ChildMinder::new`: stores the configuration, empty live set. -/
def ChildMinder.new (max_children : Nat) (cmd : List Byte)
    (initial_args : List (List Byte)) : ChildMinder :=
  { max_children := max_children, cmd := cmd, initial_args := initial_args,
    children := [] }

/-- Model of `Vec::swap_remove(0)`: removes the element at index 0 and moves
the last element into its place; `none` models the panic on an empty vector. -/
def swap_remove0 : List Nat → Option (Nat × List Nat)
  | [] => none
  | x :: rest =>
    match rest.getLast? with
    | none => some (x, [])
    | some la => some (x, la :: rest.dropLast)

/-- Remainder of `Vec::swap_remove(0)` applied to a vector with tail `xs`:
the last element of `xs` (when any) moves to the front. -/
def movedFront (xs : List Nat) : List Nat :=
  match xs.getLast? with
  | none => []
  | some la => la :: xs.dropLast

/-- Capacity-freeing step at the top of `ChildMinder::spawn`: when the live
set is full, `swap_remove(0)` a child and wait on it (a wait failure
propagates as an error; the child is already out of the live set). -/
def freeSlot (w : Nat → Bool) (m : ChildMinder) : ChildMinder × Except Unit Unit :=
  if m.max_children ≤ m.children.length then
    match swap_remove0 m.children with
    | none => (m, Except.error ())
    | some (c, rest) =>
      ({ m with children := rest },
       if w c then Except.ok () else Except.error ())
  else (m, Except.ok ())

/-- Model of `ChildMinder::spawn`: free a slot if at capacity, then launch
the new child (`launchOk` tells whether `Command::spawn` succeeds) and push
its handle `id`. -/
def ChildMinder.spawn (w : Nat → Bool) (launchOk : Bool) (id : Nat)
    (m : ChildMinder) : ChildMinder × Except Unit Unit :=
  match freeSlot w m with
  | (m1, Except.error e) => (m1, Except.error e)
  | (m1, Except.ok _) =>
    if launchOk then
      ({ m1 with children := m1.children ++ [id] }, Except.ok ())
    else (m1, Except.error ())

/-- Model of the `for` loop in `ChildMinder::wait_all`: wait on each taken
child in order, returning at the first failing wait (the `?` operator).
Also returns the trace of children actually waited on. -/
def waitLoop (w : Nat → Bool) : List Nat → List Nat × Except Unit Unit
  | [] => ([], Except.ok ())
  | c :: rest =>
    if w c then
      let (ws, r) := waitLoop w rest
      (c :: ws, r)
    else ([c], Except.error ())

/-- Model of `ChildMinder::wait_all`: `mem::take` empties `children` up
front, then the loop waits on the taken handles.  Returns the new state, the
trace of waited-on children, and the result. -/
def ChildMinder.wait_all (w : Nat → Bool) (m : ChildMinder) :
    ChildMinder × List Nat × Except Unit Unit :=
  let (ws, r) := waitLoop w m.children
  ({ m with children := [] }, ws, r)

/-- Iterated `spawn` over a list of child identities, stopping at the first
error as a `?`-propagating caller would; `lOk id` tells whether the launch
of `id` succeeds. -/
def spawnMany (w : Nat → Bool) (lOk : Nat → Bool) :
    List Nat → ChildMinder → ChildMinder × Except Unit Unit
  | [], m => (m, Except.ok ())
  | id :: rest, m =>
    match ChildMinder.spawn w (lOk id) id m with
    | (m1, Except.ok _) => spawnMany w lOk rest m1
    | (m1, Except.error e) => (m1, Except.error e)

/-- Wait oracle that always succeeds / launch oracle that always succeeds. -/
def allOk : Nat → Bool := fun _ => true

/-- Wait oracle failing exactly on child 0. -/
def failWait0 : Nat → Bool := fun c => c != 0

/-- Wait oracle failing exactly on child 3. -/
def failWait3 : Nat → Bool := fun c => c != 3

/-!
Embedding of the driver computations in `main` (src/main.rs).
-/

/-- Model of `initial_cmd_line_len`: fold adding each argument's length plus
one separator onto the command's length. -/
def initial_cmd_line_len (cmd : List Byte) (args : List (List Byte)) : Nat :=
  args.foldl (fun acc i => acc + i.length + 1) cmd.length

/-- Model of the driver's `max_remaining_args_len` computation in `main`:
`max_cmd_line_len as isize - initial_cmd_line_len(..) as isize - 1`. -/
def computeMaxLen (max_cmd_line_len : Nat) (cmd : List Byte)
    (args : List (List Byte)) : Int :=
  (max_cmd_line_len : Int) - (initial_cmd_line_len cmd args : Int) - 1

/-- Model of the driver's fatal-configuration check in `main`:
`bail!` exactly when `max_remaining_args_len < 1`. -/
def driverBailsOut (max_cmd_line_len : Nat) (cmd : List Byte)
    (args : List (List Byte)) : Bool :=
  decide (computeMaxLen max_cmd_line_len cmd args < 1)

/-!
Helper lemmas about the parser run with the recording action.
-/

theorem append_arg_args (s : Parser) : s.append_arg.args = s.args ++ [s.arg] := rfl

theorem append_arg_arg (s : Parser) : s.append_arg.arg = [] := rfl

theorem append_arg_max_len (s : Parser) : s.append_arg.max_len = s.max_len := rfl

theorem append_arg_cur_len (s : Parser) :
    s.append_arg.cur_len =
      (if !s.args.isEmpty then s.cur_len + 1 else s.cur_len) + s.arg.length := rfl

/-- Explicit form of `handle_space` under the recording action, used to
split proofs on the `is_break_down_needed` test. -/
theorem handle_space_rec (s : Parser) (t : Batches) :
    Parser.handle_space recordAction s t =
      (let s1 := if s.is_break_down_needed then
          { s with args := [], cur_len := 0 } else s
       ((if !s1.arg.isEmpty then s1.append_arg else s1),
        (if s.is_break_down_needed then t ++ [s.args] else t),
        Except.ok ())) := by
  by_cases h : s.is_break_down_needed <;>
    simp [Parser.handle_space, recordAction, h]

theorem space_rec_ok (s : Parser) (t : Batches) :
    (Parser.handle_space recordAction s t).2.2 = Except.ok () := by
  rw [handle_space_rec]

theorem space_rec_arg (s : Parser) (t : Batches) :
    (Parser.handle_space recordAction s t).1.arg = [] := by
  rw [handle_space_rec]
  by_cases h : s.is_break_down_needed <;>
    by_cases ha : s.arg.isEmpty <;>
      simp_all [append_arg_arg, List.isEmpty_iff]

theorem space_rec_max_len (s : Parser) (t : Batches) :
    (Parser.handle_space recordAction s t).1.max_len = s.max_len := by
  rw [handle_space_rec]
  by_cases h : s.is_break_down_needed <;>
    by_cases ha : s.arg.isEmpty <;>
      simp_all [append_arg_max_len]

/-- Token bookkeeping of one `handle_space` step: the flattened recorded
batches followed by the pending batch gain exactly the finalized token. -/
theorem space_rec_tokens (s : Parser) (t : Batches) :
    ((Parser.handle_space recordAction s t).2.1).flatten ++
        (Parser.handle_space recordAction s t).1.args =
      t.flatten ++ s.args ++ (if s.arg.isEmpty then [] else [s.arg]) := by
  rw [handle_space_rec]
  by_cases h : s.is_break_down_needed <;>
    by_cases ha : s.arg.isEmpty <;>
      simp_all [append_arg_args, List.isEmpty_iff]

/-- Explicit form of `handle_eof` under the recording action: the state is
that of `handle_space`, and the final non-empty batch is recorded without
being cleared from the state. -/
theorem handle_eof_rec (s : Parser) (t : Batches) :
    Parser.handle_eof recordAction s t =
      ((Parser.handle_space recordAction s t).1,
       (Parser.handle_space recordAction s t).2.1 ++
         (if (Parser.handle_space recordAction s t).1.args.isEmpty then []
          else [(Parser.handle_space recordAction s t).1.args]),
       Except.ok ()) := by
  rcases hsp : Parser.handle_space recordAction s t with ⟨s1, t1, r⟩
  have hr : r = Except.ok () := by
    have h := space_rec_ok s t
    rw [hsp] at h
    exact h
  subst hr
  simp only [Parser.handle_eof, hsp, recordAction]
  by_cases h : s1.args.isEmpty <;> simp [h]

/-- The driver-style run and the recursion-friendly run coincide, because
the recording action never fails. -/
theorem runFull_eq : ∀ (input : List Byte) (s : Parser) (t : Batches),
    (match runBytes recordAction input s t with
     | (s1, t1, Except.ok _) => Parser.handle_eof recordAction s1 t1
     | r => r) = parseFull input s t := by
  intro input
  induction input with
  | nil => intro s t; simp [runBytes, parseFull]
  | cons b rest ih =>
    intro s t
    by_cases hws : isAsciiWhitespace b
    · rcases hsp : Parser.handle_space recordAction s t with ⟨s1, t1, r⟩
      have hr : r = Except.ok () := by
        have h := space_rec_ok s t
        rw [hsp] at h
        exact h
      subst hr
      simp only [runBytes, parseFull, Parser.handle_byte, hws, if_pos, hsp]
      exact ih s1 t1
    · simp only [runBytes, parseFull, Parser.handle_byte, hws]
      simp only [Bool.false_eq_true, if_false]
      exact ih _ t

theorem parseRun_eq (max_len : Nat) (input : List Byte) :
    parseRun max_len input = parseFull input (Parser.new max_len) [] := by
  rw [parseRun]
  exact runFull_eq input (Parser.new max_len) []

/-- Token preservation, generalized over the start state: the tokens of all
batches recorded by a full run are the previously recorded ones, then the
pending batch, then the tokens still to be read (with `s.arg` as the prefix
of the first of them). -/
theorem parseFull_tokens : ∀ (input : List Byte) (s : Parser) (t : Batches),
    ((parseFull input s t).2.1).flatten =
      t.flatten ++ s.args ++ splitAux input s.arg := by
  intro input
  induction input with
  | nil =>
    intro s t
    have htok := space_rec_tokens s t
    simp only [parseFull, handle_eof_rec]
    have key : ((Parser.handle_space recordAction s t).2.1 ++
        (if (Parser.handle_space recordAction s t).1.args.isEmpty then []
         else [(Parser.handle_space recordAction s t).1.args])).flatten =
        (Parser.handle_space recordAction s t).2.1.flatten ++
          (Parser.handle_space recordAction s t).1.args := by
      by_cases h : (Parser.handle_space recordAction s t).1.args.isEmpty
      · rw [List.isEmpty_iff] at h
        simp [h]
      · simp [h]
    rw [key, htok]
    simp [splitAux]
  | cons b rest ih =>
    intro s t
    by_cases hws : isAsciiWhitespace b
    · rcases hsp : Parser.handle_space recordAction s t with ⟨s1, t1, r⟩
      have hr : r = Except.ok () := by
        have h := space_rec_ok s t
        rw [hsp] at h
        exact h
      subst hr
      have harg : s1.arg = [] := by
        have h := space_rec_arg s t
        rw [hsp] at h
        exact h
      have htok : t1.flatten ++ s1.args =
          t.flatten ++ s.args ++ (if s.arg.isEmpty then [] else [s.arg]) := by
        have h := space_rec_tokens s t
        rw [hsp] at h
        exact h
      simp only [parseFull, Parser.handle_byte, hws, if_pos, hsp]
      rw [ih s1 t1, harg]
      simp only [splitAux, hws, if_pos]
      rw [htok]
      by_cases ha : s.arg.isEmpty <;> simp [ha, List.append_assoc]
    · simp only [parseFull, Parser.handle_byte, hws, Bool.false_eq_true, if_false]
      rw [ih]
      simp only [splitAux, hws, Bool.false_eq_true, if_false]

theorem accountedSize_nil : accountedSize [] = 0 := rfl

theorem accountedSize_append (l : List (List Byte)) (a : List Byte) :
    accountedSize (l ++ [a]) =
      accountedSize l + (if l.isEmpty then 0 else 1) + a.length := by
  cases l with
  | nil => simp [accountedSize]
  | cons x xs => simp [accountedSize]; omega

/-- `append_arg` keeps `cur_len` equal to the accounted size of `args`. -/
theorem append_arg_size (s : Parser) (h : s.cur_len = accountedSize s.args) :
    s.append_arg.cur_len = accountedSize s.append_arg.args := by
  rw [append_arg_cur_len, append_arg_args, accountedSize_append, h]
  by_cases he : s.args.isEmpty <;> simp [he]

/-- One `handle_space` step preserves the size invariant. -/
theorem space_rec_inv (s : Parser) (t : Batches) (hs : SizeInv s) :
    SizeInv (Parser.handle_space recordAction s t).1 := by
  obtain ⟨hid, hbound⟩ := hs
  rw [handle_space_rec]
  by_cases hb : s.is_break_down_needed
  · by_cases ha : s.arg.isEmpty
    · simp only [hb, if_pos, ha, Bool.not_true, Bool.false_eq_true, if_false]
      exact ⟨rfl, Or.inl (Nat.zero_le _)⟩
    · simp only [hb, if_pos, ha, Bool.not_false, if_true]
      constructor
      · exact append_arg_size _ rfl
      · rw [append_arg_cur_len, append_arg_args]
        simp only [List.isEmpty_nil, Bool.not_true, Bool.false_eq_true, if_false,
          List.nil_append, List.length_cons, List.length_nil, append_arg_max_len]
        rcases le_or_lt s.arg.length s.max_len with hle | hlt
        · exact Or.inl (by simpa using hle)
        · exact Or.inr ⟨by simp, by simpa using hlt⟩
  · by_cases ha : s.arg.isEmpty
    · simp only [hb, Bool.false_eq_true, if_false, ha, Bool.not_true]
      exact ⟨hid, hbound⟩
    · simp only [hb, Bool.false_eq_true, if_false, ha, Bool.not_false, if_true]
      constructor
      · exact append_arg_size _ hid
      · rw [append_arg_cur_len, append_arg_max_len]
        rw [Parser.is_break_down_needed] at hb
        simp only [decide_eq_true_eq, Nat.not_lt] at hb
        by_cases he : s.args.isEmpty <;> simp only [he, Bool.not_true, Bool.not_false,
          Bool.false_eq_true, if_false, if_true] at hb ⊢ <;> exact Or.inl (by omega)

/-- One `handle_space` step only records batches the invariant allows. -/
theorem space_rec_batches (s : Parser) (t : Batches) (hs : SizeInv s)
    (ht : ∀ B ∈ t, GoodBatch s.max_len B) :
    ∀ B ∈ (Parser.handle_space recordAction s t).2.1, GoodBatch s.max_len B := by
  obtain ⟨hid, hbound⟩ := hs
  rw [handle_space_rec]
  by_cases hb : s.is_break_down_needed <;> simp only [hb, if_pos, Bool.false_eq_true,
    if_false]
  · intro B hB
    rcases List.mem_append.mp hB with h | h
    · exact ht B h
    · rw [List.mem_singleton] at h
      subst h
      rw [hid] at hbound
      rcases hbound with h | h
      · exact Or.inl h
      · exact Or.inr h
  · exact ht

/-- A state satisfying the size invariant yields a good batch. -/
theorem SizeInv.good (s : Parser) (hs : SizeInv s) : GoodBatch s.max_len s.args := by
  obtain ⟨hid, hbound⟩ := hs
  rw [hid] at hbound
  exact hbound

/-- The size invariant and batch goodness hold through a whole run. -/
theorem parseFull_inv : ∀ (input : List Byte) (s : Parser) (t : Batches),
    SizeInv s → (∀ B ∈ t, GoodBatch s.max_len B) →
    SizeInv (parseFull input s t).1 ∧
      (parseFull input s t).1.max_len = s.max_len ∧
      ∀ B ∈ (parseFull input s t).2.1, GoodBatch s.max_len B := by
  intro input
  induction input with
  | nil =>
    intro s t hs ht
    have hinv := space_rec_inv s t hs
    have hml := space_rec_max_len s t
    have hbat := space_rec_batches s t hs ht
    simp only [parseFull, handle_eof_rec]
    refine ⟨hinv, hml, ?_⟩
    intro B hB
    rcases List.mem_append.mp hB with h | h
    · exact hbat B h
    · by_cases he : (Parser.handle_space recordAction s t).1.args.isEmpty
      · simp [he] at h
      · simp only [he, Bool.false_eq_true, if_false, List.mem_singleton] at h
        subst h
        have := SizeInv.good _ hinv
        rw [hml] at this
        exact this
  | cons b rest ih =>
    intro s t hs ht
    by_cases hws : isAsciiWhitespace b
    · rcases hsp : Parser.handle_space recordAction s t with ⟨s1, t1, r⟩
      have hr : r = Except.ok () := by
        have h := space_rec_ok s t
        rw [hsp] at h
        exact h
      subst hr
      have hinv : SizeInv s1 := by
        have h := space_rec_inv s t hs
        rw [hsp] at h
        exact h
      have hml : s1.max_len = s.max_len := by
        have h := space_rec_max_len s t
        rw [hsp] at h
        exact h
      have hbat : ∀ B ∈ t1, GoodBatch s1.max_len B := by
        have h := space_rec_batches s t hs ht
        rw [hsp] at h
        rw [hml]
        exact h
      simp only [parseFull, Parser.handle_byte, hws, if_pos, hsp]
      obtain ⟨h1, h2, h3⟩ := ih s1 t1 hinv hbat
      rw [hml] at h2 h3
      exact ⟨h1, h2, h3⟩
    · simp only [parseFull, Parser.handle_byte, hws, Bool.false_eq_true, if_false]
      have hs' : SizeInv { s with arg := s.arg ++ [b] } := hs
      exact ih _ t hs' ht

/-- After a whole run the in-progress argument buffer is empty. -/
theorem parseFull_arg : ∀ (input : List Byte) (s : Parser) (t : Batches),
    (parseFull input s t).1.arg = [] := by
  intro input
  induction input with
  | nil =>
    intro s t
    simp only [parseFull, handle_eof_rec]
    exact space_rec_arg s t
  | cons b rest ih =>
    intro s t
    by_cases hws : isAsciiWhitespace b
    · rcases hsp : Parser.handle_space recordAction s t with ⟨s1, t1, r⟩
      have hr : r = Except.ok () := by
        have h := space_rec_ok s t
        rw [hsp] at h
        exact h
      subst hr
      simp only [parseFull, Parser.handle_byte, hws, if_pos, hsp]
      exact ih s1 t1
    · simp only [parseFull, Parser.handle_byte, hws, Bool.false_eq_true, if_false]
      exact ih _ t

/-- Effect of a further `handle_eof` on a state with no pending argument
bytes and consistent accounting (e.g. the state a previous `handle_eof` left
behind): it records nothing when `args` is empty, and records the stale
batch `args` exactly once otherwise. -/
theorem handle_eof_stale (s : Parser) (t : Batches) (ha : s.arg = [])
    (hc : s.cur_len = accountedSize s.args) :
    (Parser.handle_eof recordAction s t).2.1 =
      t ++ (if s.args.isEmpty then [] else [s.args]) := by
  rw [handle_eof_rec, handle_space_rec]
  by_cases he : s.args.isEmpty
  · have hargs : s.args = [] := List.isEmpty_iff.mp he
    have hcur : s.cur_len = 0 := by rw [hc, hargs, accountedSize_nil]
    have hb : s.is_break_down_needed = false := by
      rw [Parser.is_break_down_needed]
      simp [hargs, hcur, ha]
    simp [hb, ha, hargs]
  · by_cases hb : s.is_break_down_needed <;> simp [hb, ha, he]

/-!
Helper lemmas about `ChildMinder`.
-/

theorem wait_all_eq (w : Nat → Bool) (m : ChildMinder) :
    ChildMinder.wait_all w m =
      ({ m with children := [] },
       (waitLoop w m.children).1, (waitLoop w m.children).2) := by
  rcases h : waitLoop w m.children with ⟨ws, r⟩
  simp [ChildMinder.wait_all, h]

/-- The children the `wait_all` loop actually waits on: those up to and
including the first one whose wait fails. -/
theorem waitLoop_trace (w : Nat → Bool) : ∀ l : List Nat,
    (waitLoop w l).1 = l.takeWhile w ++ (l.dropWhile w).take 1 := by
  intro l
  induction l with
  | nil => simp [waitLoop]
  | cons c rest ih =>
    by_cases h : w c
    · rcases hl : waitLoop w rest with ⟨ws, r⟩
      rw [hl] at ih
      simp [waitLoop, h, hl, List.takeWhile_cons, List.dropWhile_cons, ih]
    · simp [waitLoop, h, List.takeWhile_cons, List.dropWhile_cons]

/-- The `wait_all` loop succeeds exactly when every wait succeeds. -/
theorem waitLoop_ok (w : Nat → Bool) : ∀ l : List Nat,
    (waitLoop w l).2 = Except.ok () ↔ ∀ c ∈ l, w c = true := by
  intro l
  induction l with
  | nil => simp [waitLoop]
  | cons c rest ih =>
    by_cases h : w c
    · rcases hl : waitLoop w rest with ⟨ws, r⟩
      rw [hl] at ih
      simp only [waitLoop, h, if_pos, hl, List.mem_cons]
      constructor
      · intro hr x hx
        rcases hx with hx | hx
        · subst hx; exact h
        · exact ih.mp hr x hx
      · intro hall
        exact ih.mpr fun x hx => hall x (Or.inr hx)
    · simp only [waitLoop, h, Bool.false_eq_true, if_false, List.mem_cons]
      constructor
      · intro hr
        exact absurd hr (by simp)
      · intro hall
        exact absurd (hall c (Or.inl rfl)) (by simp [h])

/-- The waited-on children form a sublist of the taken live set. -/
theorem waitLoop_sublist (w : Nat → Bool) : ∀ l : List Nat,
    ((waitLoop w l).1).Sublist l := by
  intro l
  induction l with
  | nil => simp [waitLoop]
  | cons c rest ih =>
    by_cases h : w c
    · rcases hl : waitLoop w rest with ⟨ws, r⟩
      rw [hl] at ih
      simpa [waitLoop, h, hl] using List.Sublist.cons₂ c ih
    · simp only [waitLoop, h, Bool.false_eq_true, if_false]
      exact List.Sublist.cons₂ c (List.nil_sublist rest)

theorem movedFront_length (xs : List Nat) : (movedFront xs).length = xs.length := by
  rcases hg : xs.getLast? with _ | la
  · have hx : xs = [] := List.getLast?_eq_none_iff.mp hg
    simp [movedFront, hg, hx]
  · have hx : xs ≠ [] := by
      intro hnil
      rw [hnil] at hg
      exact absurd hg (by simp)
    have hpos : 1 ≤ xs.length := List.length_pos.mpr hx
    simp only [movedFront, hg, List.length_cons, List.length_dropLast]
    omega

theorem swap_remove0_eq (x : Nat) (xs : List Nat) :
    swap_remove0 (x :: xs) = some (x, movedFront xs) := by
  rcases hg : xs.getLast? with _ | la <;> simp [swap_remove0, movedFront, hg]

theorem freeSlot_below (w : Nat → Bool) (m : ChildMinder)
    (h : m.children.length < m.max_children) :
    freeSlot w m = (m, Except.ok ()) := by
  rw [freeSlot, if_neg (not_le.mpr h)]

theorem freeSlot_nil (w : Nat → Bool) (m : ChildMinder)
    (h : m.max_children ≤ m.children.length) (hch : m.children = []) :
    freeSlot w m = (m, Except.error ()) := by
  rw [freeSlot, if_pos h, hch]
  simp [swap_remove0]

theorem freeSlot_full (w : Nat → Bool) (m : ChildMinder) (x : Nat) (xs : List Nat)
    (h : m.max_children ≤ m.children.length) (hch : m.children = x :: xs) :
    freeSlot w m = ({ m with children := movedFront xs },
      if w x then Except.ok () else Except.error ()) := by
  rw [freeSlot, if_pos h, hch, swap_remove0_eq]

/-- Explicit form of `spawn` below capacity. -/
theorem spawn_eq_below (w : Nat → Bool) (lo : Bool) (id : Nat) (m : ChildMinder)
    (h : m.children.length < m.max_children) :
    ChildMinder.spawn w lo id m =
      if lo then ({ m with children := m.children ++ [id] }, Except.ok ())
      else (m, Except.error ()) := by
  rw [ChildMinder.spawn, freeSlot_below w m h]

/-- Explicit form of `spawn` at (or above) capacity with a non-empty live
set: wait on the child at storage index 0, move the last-stored child into
index 0, then launch. -/
theorem spawn_eq_full (w : Nat → Bool) (lo : Bool) (id : Nat) (m : ChildMinder)
    (x : Nat) (xs : List Nat)
    (h : m.max_children ≤ m.children.length) (hch : m.children = x :: xs) :
    ChildMinder.spawn w lo id m =
      if w x then
        (if lo then ({ m with children := movedFront xs ++ [id] }, Except.ok ())
         else ({ m with children := movedFront xs }, Except.error ()))
      else ({ m with children := movedFront xs }, Except.error ()) := by
  rw [ChildMinder.spawn, freeSlot_full w m x xs h hch]
  by_cases hw : w x <;> by_cases hlo : lo <;> simp [hw, hlo]

theorem spawn_eq_nil (w : Nat → Bool) (lo : Bool) (id : Nat) (m : ChildMinder)
    (h : m.max_children ≤ m.children.length) (hch : m.children = []) :
    ChildMinder.spawn w lo id m = (m, Except.error ()) := by
  rw [ChildMinder.spawn, freeSlot_nil w m h hch]

theorem spawn_max_children (w : Nat → Bool) (lo : Bool) (id : Nat)
    (m : ChildMinder) :
    (ChildMinder.spawn w lo id m).1.max_children = m.max_children := by
  rcases le_or_lt m.max_children m.children.length with h | h
  · cases hch : m.children with
    | nil => rw [spawn_eq_nil w lo id m h hch]
    | cons x xs =>
      rw [spawn_eq_full w lo id m x xs h hch]
      by_cases hw : w x <;> by_cases hlo : lo <;> simp [hw, hlo]
  · rw [spawn_eq_below w lo id m h]
    by_cases hlo : lo <;> simp [hlo]

/-- `spawn` keeps the live-set size within `max_children`. -/
theorem spawn_len_le (w : Nat → Bool) (lo : Bool) (id : Nat) (m : ChildMinder)
    (hlen : m.children.length ≤ m.max_children) :
    (ChildMinder.spawn w lo id m).1.children.length ≤ m.max_children := by
  rcases le_or_lt m.max_children m.children.length with h | h
  · cases hch : m.children with
    | nil =>
      rw [spawn_eq_nil w lo id m h hch, hch]
      simp
    | cons x xs =>
      have hlenx : xs.length + 1 ≤ m.max_children := by
        rw [hch] at hlen
        simpa using hlen
      rw [spawn_eq_full w lo id m x xs h hch]
      by_cases hw : w x <;> by_cases hlo : lo <;>
        simp [hw, hlo, movedFront_length] <;> omega
  · rw [spawn_eq_below w lo id m h]
    by_cases hlo : lo <;> simp [hlo] <;> omega

/-- A successful `spawn` at capacity leaves the live-set size unchanged. -/
theorem spawn_at_capacity (w : Nat → Bool) (lo : Bool) (id : Nat)
    (m : ChildMinder) (hlen : m.children.length = m.max_children)
    (hok : (ChildMinder.spawn w lo id m).2 = Except.ok ()) :
    (ChildMinder.spawn w lo id m).1.children.length = m.max_children := by
  have h : m.max_children ≤ m.children.length := hlen.ge
  cases hch : m.children with
  | nil =>
    rw [spawn_eq_nil w lo id m h hch] at hok
    exact absurd hok (by simp)
  | cons x xs =>
    have hlenx : xs.length + 1 = m.max_children := by
      rw [hch] at hlen
      simpa using hlen
    rw [spawn_eq_full w lo id m x xs h hch] at hok ⊢
    by_cases hw : w x <;> by_cases hlo : lo <;>
      simp_all [movedFront_length]

/-- Any run of `spawn` calls keeps the live-set size within the bound. -/
theorem spawnMany_len (w : Nat → Bool) (lOk : Nat → Bool) :
    ∀ (ids : List Nat) (m : ChildMinder), 1 ≤ m.max_children →
    m.children.length ≤ m.max_children →
    (spawnMany w lOk ids m).1.children.length ≤ m.max_children := by
  intro ids
  induction ids with
  | nil =>
    intro m hN hlen
    simpa [spawnMany] using hlen
  | cons id rest ih =>
    intro m hN hlen
    rcases hsp : ChildMinder.spawn w (lOk id) id m with ⟨m1, r⟩
    have hm1 : m1.max_children = m.max_children := by
      have h := spawn_max_children w (lOk id) id m
      rw [hsp] at h
      exact h
    have hl1 : m1.children.length ≤ m.max_children := by
      have h := spawn_len_le w (lOk id) id m hlen
      rw [hsp] at h
      exact h
    cases r with
    | ok u =>
      simp only [spawnMany, hsp]
      rw [← hm1] at hl1 ⊢
      exact ih m1 (hm1 ▸ hN) hl1
    | error e => simpa [spawnMany, hsp] using hl1

/-!
Helper lemma about the driver's length computation.
-/

theorem foldl_cmd_line_len :
    ∀ (args : List (List Byte)) (acc : Nat),
    args.foldl (fun a i => a + i.length + 1) acc =
      acc + (args.map (fun a => a.length + 1)).sum := by
  intro args
  induction args with
  | nil => intro acc; simp
  | cons a rest ih =>
    intro acc
    simp only [List.foldl_cons, List.map_cons, List.sum_cons, ih]
    omega

/-!
Claim theorems.
-/

/-- Claim C1, counterexample: with `max_len = 1` and input bytes
"x y " fed through `handle_byte` with an always-failing submission function,
the error does propagate, but the batch being flushed (`[["x"]]`, accounted
size 1) is still in the Batcher's state afterwards, contrary to the claim
that its args and size accounting are cleared; feeding the retained state to
a later flush resubmits that same batch. -/
theorem flush_failure_keeps_batch_cex :
    (runBytes failAction [120, 32, 121, 32] (Parser.new 1) ()).2.2 = Except.error () ∧
    (runBytes failAction [120, 32, 121, 32] (Parser.new 1) ()).1.args = [[120]] ∧
    (runBytes failAction [120, 32, 121, 32] (Parser.new 1) ()).1.cur_len = 1 ∧
    (Parser.handle_eof recordAction
        (runBytes failAction [120, 32, 121, 32] (Parser.new 1) ()).1 []).2.1 =
      [[[120]], [[121]]] :=
  ⟨rfl, rfl, rfl, rfl⟩

/-- Claim C1 (amended): if the submission function fails during a flush
triggered by `handle_byte` (on a whitespace byte) or by `handle_eof`, the
error propagates immediately to the caller, but the batch being flushed is
still present in the Batcher's state afterwards (`args` and `cur_len` are
unchanged, the early return skips the clearing), so a later flush can
resubmit that same batch. -/
theorem flush_failure_propagates_keeps_batch {σ ε : Type}
    (action : List (List Byte) → σ → σ × Except ε Unit) (ch : Byte) (s : Parser)
    (t t' : σ) (e : ε) (hws : isAsciiWhitespace ch = true)
    (hb : s.is_break_down_needed = true)
    (hact : action s.args t = (t', Except.error e)) :
    Parser.handle_byte action ch s t = (s, t', Except.error e) ∧
    Parser.handle_eof action s t = (s, t', Except.error e) := by
  have hsp : Parser.handle_space action s t = (s, t', Except.error e) := by
    rw [Parser.handle_space, if_pos hb, hact]
  constructor
  · rw [Parser.handle_byte, if_pos hws, hsp]
  · simp only [Parser.handle_eof, hsp]

/-- Witness for `flush_failure_propagates_keeps_batch` at a concrete
reachable state. -/
theorem flush_failure_propagates_keeps_batch_witness :
    isAsciiWhitespace 32 = true ∧
    (Parser.mk [[120]] 1 1 [121]).is_break_down_needed = true ∧
    failAction [[120]] () = ((), Except.error ()) ∧
    Parser.handle_byte failAction 32 (Parser.mk [[120]] 1 1 [121]) () =
      (Parser.mk [[120]] 1 1 [121], (), Except.error ()) :=
  ⟨rfl, rfl, rfl,
   (flush_failure_propagates_keeps_batch failAction 32 (Parser.mk [[120]] 1 1 [121])
     () () () rfl rfl rfl).1⟩

/-- Claim C2, counterexample: with `max_len = 42` and input "x", the first
`handle_eof` submits `[["x"]]`, and a second `handle_eof` with no
intervening `handle_byte` submits the same batch again (one invocation, not
zero), because `handle_eof` does not clear `args` after its final flush. -/
theorem second_eof_resubmits_cex :
    (parseRun 42 [120]).2.1 = [[[120]]] ∧
    (Parser.handle_eof recordAction (parseRun 42 [120]).1
        (parseRun 42 [120]).2.1).2.1 = [[[120]], [[120]]] :=
  ⟨rfl, rfl⟩

/-- Claim C2 (amended): after a full run (all bytes, then one `handle_eof`),
a second `handle_eof` invokes the submission function zero times when the
Batcher's batch is empty (in particular it never submits an empty batch),
but when the first call flushed a non-empty final batch, that batch is still
in `args` and the second call resubmits it exactly once. -/
theorem second_eof_submissions (max_len : Nat) (input : List Byte) :
    (Parser.handle_eof recordAction (parseRun max_len input).1
        (parseRun max_len input).2.1).2.1 =
      (parseRun max_len input).2.1 ++
        (if (parseRun max_len input).1.args.isEmpty then []
         else [(parseRun max_len input).1.args]) := by
  rw [parseRun_eq]
  apply handle_eof_stale
  · exact parseFull_arg input _ _
  · exact (parseFull_inv input (Parser.new max_len) []
      ⟨rfl, Or.inl (Nat.zero_le _)⟩ (by simp)).1.1

/-- Claim C3: the code violates the claim.  With `max_len = 1` and input
"xy ", the in-progress token "xy" alone exceeds `max_len`, the overflow
check fires while the batch is empty (`handle_space` has no non-empty guard,
marked `TODO handle single arg too long` in the source), and the submission
function is invoked with an empty batch. -/
theorem oversized_token_submits_empty_batch :
    (parseRun 1 [120, 121, 32]).2.1 = [[], [[120, 121]]] ∧
    [] ∈ (parseRun 1 [120, 121, 32]).2.1 :=
  ⟨rfl, by decide⟩

/-- Claim C4, counterexample: a pool with live children 0 and 1 where the
wait on child 0 fails: `wait_all` returns the failure, but child 1 — in the
live set when `wait_all` was called — is never waited on (the `?` in the
loop returns early), contrary to the claim that waiting continues on the
remaining processes. -/
theorem wait_all_skips_after_failure_cex :
    (ChildMinder.wait_all failWait0 (ChildMinder.mk 2 [] [] [0, 1])).2.2 =
      Except.error () ∧
    (ChildMinder.wait_all failWait0 (ChildMinder.mk 2 [] [] [0, 1])).2.1 = [0] ∧
    1 ∈ (ChildMinder.mk 2 [] [] [0, 1]).children ∧
    1 ∉ (ChildMinder.wait_all failWait0 (ChildMinder.mk 2 [] [] [0, 1])).2.1 :=
  ⟨rfl, rfl, by decide, by decide⟩

/-- Claim C4 (amended): `wait_all` removes the entire live set up front (the
live set is empty afterwards in every case) and returns the first wait
failure encountered, but it does not continue waiting after a failure: it
waits exactly on the taken children up to and including the first failing
one, and succeeds iff every wait succeeds. -/
theorem wait_all_drains_and_reports_first_failure (w : Nat → Bool)
    (m : ChildMinder) :
    (ChildMinder.wait_all w m).1.children = [] ∧
    (ChildMinder.wait_all w m).2.1 =
      m.children.takeWhile w ++ (m.children.dropWhile w).take 1 ∧
    ((ChildMinder.wait_all w m).2.2 = Except.ok () ↔
      ∀ c ∈ m.children, w c = true) := by
  rw [wait_all_eq]
  exact ⟨rfl, waitLoop_trace w m.children, waitLoop_ok w m.children⟩

/-- Claim C5: for every input byte sequence and every `max_len ≥ 1`, the
in-order concatenation of the tokens of all batches submitted across the
`handle_byte` calls and the final `handle_eof` equals the input split on
ASCII whitespace with empty runs dropped: no token is duplicated, dropped,
or reordered. -/
theorem batcher_token_stream_preserved (max_len : Nat) (input : List Byte)
    (hml : 1 ≤ max_len) :
    ((parseRun max_len input).2.1).flatten = splitTokens input := by
  rw [parseRun_eq, parseFull_tokens]
  simp [Parser.new, splitTokens]

/-- Witness for `batcher_token_stream_preserved` on input "x y". -/
theorem batcher_token_stream_preserved_witness :
    1 ≤ 3 ∧ ((parseRun 3 [120, 32, 121]).2.1).flatten = splitTokens [120, 32, 121] :=
  ⟨by decide, batcher_token_stream_preserved 3 [120, 32, 121] (by decide)⟩

/-- Claim C6: the Batcher's accounted size (`cur_len`) always equals the sum
of the batch's token lengths plus one separator byte per adjacent pair
(`accountedSize`), and every submitted batch has accounted size at most
`max_len` except a batch consisting of a single token that alone exceeds
`max_len` (this also covers the empty batches of the C3 gap, whose
accounted size 0 is within the bound). -/
theorem batch_size_accounting (max_len : Nat) (input : List Byte)
    (hml : 1 ≤ max_len) :
    (parseRun max_len input).1.cur_len =
      accountedSize (parseRun max_len input).1.args ∧
    ∀ B ∈ (parseRun max_len input).2.1,
      accountedSize B ≤ max_len ∨ (B.length = 1 ∧ max_len < accountedSize B) := by
  rw [parseRun_eq]
  have h := parseFull_inv input (Parser.new max_len) []
    ⟨rfl, Or.inl (Nat.zero_le _)⟩ (by simp)
  exact ⟨h.1.1, h.2.2⟩

/-- Witness for `batch_size_accounting`, with an oversized single token. -/
theorem batch_size_accounting_witness :
    1 ≤ 1 ∧
    ((parseRun 1 [120, 121, 32]).1.cur_len =
        accountedSize (parseRun 1 [120, 121, 32]).1.args ∧
      ∀ B ∈ (parseRun 1 [120, 121, 32]).2.1,
        accountedSize B ≤ 1 ∨ (B.length = 1 ∧ 1 < accountedSize B)) :=
  ⟨by decide, batch_size_accounting 1 [120, 121, 32] (by decide)⟩

/-- Claim C7: for a pool with maximum concurrency `N ≥ 1`, the live-process
count never exceeds `N` after any sequence of `spawn` calls; a `spawn` made
at capacity first waits on a live process (a failing wait aborts before any
launch) and, when successful, leaves the count unchanged; and after
`wait_all` the live-process count is exactly 0. -/
theorem pool_capacity_invariant (N : Nat) (cmd : List Byte)
    (ia : List (List Byte)) (w lOk : Nat → Bool) (ids : List Nat)
    (hN : 1 ≤ N) :
    (spawnMany w lOk ids (ChildMinder.new N cmd ia)).1.children.length ≤ N ∧
    (∀ (m : ChildMinder) (lo : Bool) (id : Nat),
      m.children.length = m.max_children →
      (ChildMinder.spawn w lo id m).2 = Except.ok () →
      (ChildMinder.spawn w lo id m).1.children.length = m.max_children) ∧
    (∀ (m : ChildMinder) (lo : Bool) (id : Nat) (x : Nat) (xs : List Nat),
      m.children.length = m.max_children → m.children = x :: xs →
      w x = false →
      (ChildMinder.spawn w lo id m).2 = Except.error ()) ∧
    (ChildMinder.wait_all w
        (spawnMany w lOk ids (ChildMinder.new N cmd ia)).1).1.children.length = 0 := by
  refine ⟨?_, ?_, ?_, ?_⟩
  · exact spawnMany_len w lOk ids (ChildMinder.new N cmd ia) hN (Nat.zero_le N)
  · intro m lo id hlen hok
    exact spawn_at_capacity w lo id m hlen hok
  · intro m lo id x xs hlen hch hwx
    rw [spawn_eq_full w lo id m x xs hlen.ge hch]
    simp [hwx]
  · rw [wait_all_eq]
    rfl

/-- Witness for `pool_capacity_invariant` with `N = 1` and one spawn. -/
theorem pool_capacity_invariant_witness :
    1 ≤ 1 ∧ (spawnMany allOk allOk [7] (ChildMinder.new 1 [] [])).1.children.length ≤ 1 :=
  ⟨by decide, (pool_capacity_invariant 1 [] [] allOk allOk [7] (by decide)).1⟩

/-- Claim C8: the driver computes the Batcher's `max_len` as
`MAX_BYTES - (len(CMD) + sum(len(a) + 1 for a in INITIAL_ARGS)) - 1`
(signed arithmetic, as in the source) and bails out fatally exactly when
this value is less than 1; and for program "x" with initial args "y", "z"
the computed initial command-line length is 5. -/
theorem driver_max_len_computation :
    (∀ (max_bytes : Nat) (cmd : List Byte) (args : List (List Byte)),
      computeMaxLen max_bytes cmd args =
        (max_bytes : Int) -
          ((cmd.length : Int) + ((args.map (fun a => a.length + 1)).sum : Nat)) - 1 ∧
      (driverBailsOut max_bytes cmd args = true ↔
        computeMaxLen max_bytes cmd args < 1)) ∧
    initial_cmd_line_len [120] [[121], [122]] = 5 := by
  refine ⟨fun max_bytes cmd args => ⟨?_, ?_⟩, by decide⟩
  · have h := foldl_cmd_line_len args cmd.length
    rw [computeMaxLen, initial_cmd_line_len, h]
    push_cast
    ring
  · simp [driverBailsOut]

/-- Claim C9: `wait_all` transfers the entire live set out of the pool
before any wait, so the live set is empty afterwards even when a wait fails;
a subsequent `wait_all` (the destructor's drain) therefore performs no
waits, and — the live handles being distinct — no child is waited on twice. -/
theorem wait_all_transfers_live_set (w : Nat → Bool) (m : ChildMinder)
    (hnd : m.children.Nodup) :
    (ChildMinder.wait_all w m).1.children = [] ∧
    (ChildMinder.wait_all w ((ChildMinder.wait_all w m).1)).2.1 = [] ∧
    ((ChildMinder.wait_all w m).2.1).Nodup := by
  rw [wait_all_eq]
  refine ⟨rfl, ?_, ?_⟩
  · simp [wait_all_eq, waitLoop]
  · exact hnd.sublist (waitLoop_sublist w m.children)

/-- Witness for `wait_all_transfers_live_set` with a failing first wait. -/
theorem wait_all_transfers_live_set_witness :
    (ChildMinder.mk 2 [] [] [0, 1]).children.Nodup ∧
    (ChildMinder.wait_all failWait0 (ChildMinder.mk 2 [] [] [0, 1])).1.children = [] :=
  ⟨by decide,
   (wait_all_transfers_live_set failWait0 (ChildMinder.mk 2 [] [] [0, 1]) (by decide)).1⟩

/-- Claim C10: a `spawn` at capacity always removes and waits on the child
at storage index 0 of the live vector, and the removal moves the last-stored
child into index 0 (`swap_remove`); the choice is a deterministic function of
the spawn history (the model is a pure function of it) and is not FIFO once
an eviction has occurred: with `N = 3`, after spawning 1, 2, 3, 4 the live
set is `[3, 2, 4]` in storage order, so the next eviction waits on 3 even
though 2 — still live — was launched before 3. -/
theorem spawn_eviction_storage_index_zero :
    (∀ (w : Nat → Bool) (lo : Bool) (id : Nat) (m : ChildMinder)
        (x : Nat) (xs : List Nat),
      m.max_children ≤ m.children.length → m.children = x :: xs →
      (w x = false →
        ChildMinder.spawn w lo id m =
          ({ m with children := movedFront xs }, Except.error ())) ∧
      (w x = true → lo = true →
        ChildMinder.spawn w lo id m =
          ({ m with children := movedFront xs ++ [id] }, Except.ok ()))) ∧
    (spawnMany allOk allOk [1, 2, 3, 4] (ChildMinder.new 3 [] [])).1.children =
      [3, 2, 4] ∧
    (ChildMinder.spawn failWait3 true 5 (ChildMinder.mk 3 [] [] [3, 2, 4])).2 =
      Except.error () ∧
    2 ∈ (ChildMinder.mk 3 [] [] [3, 2, 4]).children := by
  refine ⟨?_, rfl, rfl, by decide⟩
  intro w lo id m x xs h hch
  constructor
  · intro hw
    rw [spawn_eq_full w lo id m x xs h hch]
    simp [hw]
  · intro hw hlo
    rw [spawn_eq_full w lo id m x xs h hch]
    simp [hw, hlo]

/-- Witness for `spawn_eviction_storage_index_zero`: the eviction from
`[3, 2, 4]` waits on 3 and moves 4 to the front. -/
theorem spawn_eviction_storage_index_zero_witness :
    failWait3 3 = false ∧
    ChildMinder.spawn failWait3 true 5 (ChildMinder.mk 3 [] [] [3, 2, 4]) =
      (ChildMinder.mk 3 [] [] [4, 2], Except.error ()) :=
  ⟨rfl,
   (spawn_eviction_storage_index_zero.1 failWait3 true 5
     (ChildMinder.mk 3 [] [] [3, 2, 4]) 3 [2, 4] (by decide) rfl).1 rfl⟩

end RXargs
